import Mathlib

/-!
Verification of the anathema template compiler and runtime against its
specification.  Each section shallowly embeds one component of the Rust
source; theorems at the end of the file settle the spec claims.

Machine integers: all ids (StringId, ValueId, TextId) and sizes are
`usize` values used only as opaque indices or list lengths, so they are
embedded as `Nat`; no arithmetic in the embedded code can overflow them.
-/

namespace Anathema

/-!
Value model  (src/anathema-values/src/value/mod.rs)

`Owned` and `Num` live in `value/owned.rs` / `value/num.rs`, which are not
part of the source tree given; they are modelled from the spec below.
-/

/-- Modelled from the spec: `value/num.rs` is missing from the source tree.
The spec says numbers are signed or unsigned integers (floats are a
separate `Owned` case and are not representable in this embedding; no
claim depends on them).  `TryFrom<ValueRef> for u64` in `value/mod.rs`
confirms the `Num::Unsigned(u64)` constructor. -/
inductive Num where
  | unsigned (n : Nat)
  | signed (i : Int)
deriving DecidableEq

/-- Modelled from the spec: `value/owned.rs` is missing from the source
tree.  The spec describes `Owned` as "a primitive scalar: bool,
signed/unsigned int, float, color".  Floats are omitted (floating point is
not shallowly embeddable and no claim touches it); a color is embedded as
an opaque rgb triple. -/
inductive Owned where
  | bool (b : Bool)
  | num (n : Num)
  | color (r g b : Nat)
deriving DecidableEq

/-- `ValueRef` (lifetime-parametric in Rust) from `value/mod.rs`.  The `Map` and `List` variants
borrow a `&dyn Collection` and `Expressions` borrows `&[ValueExpr]`; none
of the functions embedded here ever inspect those payloads, so each is
carried as an opaque `Nat` token standing for the borrowed object. -/
inductive ValueRef where
  | str (s : String)
  | map (c : Nat)
  | list (c : Nat)
  | expressions (e : Nat)
  | owned (o : Owned)
deriving DecidableEq

/-- `ValueRef::is_true` from `value/mod.rs` lines 28..34, verbatim:
`Str(s) => s.is_empty()`, `Owned(Owned::Bool(b)) => *b`, `_ => false`. -/
def ValueRef.is_true : ValueRef → Bool
  | .str s => s.isEmpty
  | .owned (.bool b) => b
  | _ => false

/-- Discriminates the five shapes of `ValueRef`. -/
def ValueRef.shape : ValueRef → Nat
  | .str _ => 0
  | .map _ => 1
  | .list _ => 2
  | .expressions _ => 3
  | .owned _ => 4

/-- `impl PartialEq for ValueRef` from `value/mod.rs` lines 37..48.
`Str`/`Str` compares the strings and `Owned`/`Owned` compares the scalars;
every other pair of shapes hits the catch-all arm
`_ => panic!("need equality for Collection trait")`, embedded as `none`. -/
def valueRefEq : ValueRef → ValueRef → Option Bool
  | .str a, .str b => some (decide (a = b))
  | .owned a, .owned b => some (decide (a = b))
  | _, _ => none

/-!
NodeId  (src/anathema-widget-core/src/node.rs)

`NodeId` wraps a `Vec<usize>`; it is embedded as `List Nat`.
-/

/-- `impl PartialEq<[usize]> for NodeId`, lines 39..44: both sides are
truncated to the length of the shorter one and only that common part is
compared: `let max = self.0.len().min(rhs.len()); self.0[..max].eq(&rhs[..max])`. -/
def nodeIdEq (a b : List Nat) : Bool :=
  let m := Nat.min a.length b.length
  decide (a.take m = b.take m)

/-!
ControlFlow widget node  (src/anathema-widget-core/src/generator/nodes/controlflow.rs)

`If.cond : Value<bool>` and the `Nodes` bodies come from types outside the
given source tree; conditions are modelled by their resolved truth value
(`Value::<bool>::is_true`) and each body by its `Nodes::count()` result,
which is all `IfElse::body_mut` / `IfElse::count` consume.
-/

/-- One `Else` arm: `cond: Option<Value<bool>>` plus its body, the latter
modelled by its node count. -/
structure ElseArm where
  cond : Option Bool
  bodyCount : Nat

/-- The `IfElse` node: the `if` arm (condition and body count) plus the
list of `else` arms. -/
structure IfElseNode where
  ifCond : Bool
  ifCount : Nat
  elses : List ElseArm

/-- `Else::is_true`: an absent condition is true, a present one is its
resolved value. -/
def ElseArm.isTrueArm (e : ElseArm) : Bool :=
  match e.cond with
  | none => true
  | some c => c

/-- `IfElse::body` / `IfElse::body_mut`: the `if` body when its condition
is true, otherwise the body of the first true `else` arm, otherwise none.
The selected body is represented by its node count. -/
def IfElseNode.selectedBody (n : IfElseNode) : Option Nat :=
  if n.ifCond then some n.ifCount
  else (n.elses.find? ElseArm.isTrueArm).map ElseArm.bodyCount

/-- `IfElse::count`: `self.body().map(|nodes| nodes.count()).unwrap_or(0)`. -/
def IfElseNode.count (n : IfElseNode) : Nat :=
  (n.selectedBody).getD 0

/-- Activity flags of the else arms given whether an earlier arm (the if
arm or a previous else) was already taken: an else arm is active exactly
when no earlier arm was taken and its condition is true or absent. -/
def elseFlags : Bool → List ElseArm → List Bool
  | _, [] => []
  | prevTaken, e :: es =>
    let a := !prevTaken && e.isTrueArm
    a :: elseFlags (prevTaken || a) es

/-- Activity flags of all arms of an `IfElse` node, if arm first. -/
def IfElseNode.activeFlags (n : IfElseNode) : List Bool :=
  n.ifCond :: elseFlags n.ifCond n.elses

/-- The node counts of all arms, if arm first. -/
def IfElseNode.armCounts (n : IfElseNode) : List Nat :=
  n.ifCount :: n.elses.map ElseArm.bodyCount

/-- Sum of the counts of the arms flagged active. -/
def flaggedSum : List Bool → List Nat → Nat
  | a :: as_, c :: cs => (if a then c else 0) + flaggedSum as_ cs
  | _, _ => 0

/-!
Compiler: parse expressions and instructions

`ParseExpr` is `crate::parsing::parser::Expression`, the optimizer input;
its variants are pinned by the exhaustive match in
`src/anathema-compiler/src/compiler/optimizer.rs`.  `Instruction` merges
the optimizer output type (`compiler/optimizer.rs` `Expression`) with the
`anathema_compiler::Instruction` consumed by `anathema-vm/src/scope.rs`;
the latter additionally has a `View(id)` variant, which the optimizer
never emits.  All ids are constant-pool indices, carried as `Nat`.
-/

inductive ParseExpr where
  | ifE (cond : Nat)
  | elseE (cond : Option Nat)
  | forE (data binding : Nat)
  | node (ident : Nat)
  | loadText (index : Nat)
  | loadAttribute (key value : Nat)
  | scopeStart
  | scopeEnd
  | eof
deriving DecidableEq

inductive Instruction where
  | ifE (cond size : Nat)
  | elseE (cond : Option Nat) (size : Nat)
  | forE (data binding size : Nat)
  | loadText (index : Nat)
  | loadAttribute (key value : Nat)
  | node (ident scopeSize : Nat)
  | view (id : Nat)
deriving DecidableEq

/-- True for the `If`, `Else` and `For` parse expressions, the heads
matched by `Optimizer::remove_empty_if_else_for`. -/
def isHead : ParseExpr → Bool
  | .ifE _ => true
  | .elseE _ => true
  | .forE _ _ => true
  | _ => false

/-- True for `LoadText` and `LoadAttribute` parse expressions. -/
def isLoadP : ParseExpr → Bool
  | .loadText _ => true
  | .loadAttribute _ _ => true
  | _ => false

/-- True for `LoadText` and `LoadAttribute` instructions. -/
def isLoadI : Instruction → Bool
  | .loadText _ => true
  | .loadAttribute _ _ => true
  | _ => false

/-- The instruction emitted for a `LoadText` / `LoadAttribute` parse
expression (other parse expressions never reach this translation). -/
def loadInstr : ParseExpr → Instruction
  | .loadText i => .loadText i
  | .loadAttribute k v => .loadAttribute k v
  | _ => .loadText 0

/-- `Optimizer::remove_empty_if_else_for` (optimizer.rs lines 153..165):
scan the flat list left to right; an `If`/`Else`/`For` head is removed
unless the very next element is a `ScopeStart`.  Removal re-examines the
element that slides into the current position, which the recursion below
reproduces by dropping the head and recursing on the tail. -/
def removeEmptyIfElseFor : List ParseExpr → List ParseExpr
  | [] => []
  | e :: rest =>
    if isHead e then
      match rest with
      | .scopeStart :: _ => e :: removeEmptyIfElseFor rest
      | _ => removeEmptyIfElseFor rest
    else e :: removeEmptyIfElseFor rest

/-- Whether every `If`/`Else`/`For` in the list is immediately followed by
a `ScopeStart` (the property `remove_empty_if_else_for` establishes). -/
def headsScoped : List ParseExpr → Bool
  | [] => true
  | e :: rest =>
    (if isHead e then
      match rest with
      | .scopeStart :: _ => true
      | _ => false
     else true)
    && headsScoped rest

/-- The scan inside `Optimizer::opt_scope`: starting just after a consumed
`ScopeStart` at nesting level `level`, return the index of the matching
`ScopeEnd`, or `none` when the list ends first. -/
def findScopeEnd : List ParseExpr → Nat → Option Nat
  | [], _ => none
  | e :: rest, level =>
    match e with
    | .scopeStart => (findScopeEnd rest (level + 1)).map (· + 1)
    | .scopeEnd =>
      if level = 1 then some 0
      else (findScopeEnd rest (level - 1)).map (· + 1)
    | _ => (findScopeEnd rest level).map (· + 1)

/-- `Optimizer::optimize` (optimizer.rs lines 42..103) after its
`remove_empty_if_else_for` pre-pass, fuelled: fuel `input.length + 1`
always suffices since every step consumes at least the head element.
`none` embeds the panics: `opt_scope` hits `todo!()` when an
`If`/`Else`/`For` head is not followed by a `ScopeStart`, and a
`ScopeStart`/`ScopeEnd` surviving to the main loop hits `unreachable!()`.
When `opt_scope` finds no matching `ScopeEnd` its while loop simply runs
off the end draining nothing, so the head is emitted with size 0 and the
main loop resumes right after the `ScopeStart`; the `none` branches of
`findScopeEnd` below reproduce that.  A drained scope body is re-optimized
by a fresh `Optimizer`, which re-runs the pre-pass, hence the inner `removeEmptyIfElseFor`. -/
def optimizeF : Nat → List ParseExpr → Option (List Instruction)
  | _, [] => some []
  | 0, _ :: _ => none
  | f + 1, e :: rest =>
    match e with
    | .ifE c =>
      match rest with
      | .scopeStart :: rest2 =>
        match findScopeEnd rest2 1 with
        | some i => do
          let body ← optimizeF f (removeEmptyIfElseFor (rest2.take i))
          let cont ← optimizeF f (rest2.drop (i + 1))
          pure (.ifE c body.length :: (body ++ cont))
        | none => do
          let cont ← optimizeF f rest2
          pure (.ifE c 0 :: cont)
      | _ => none
    | .elseE c =>
      match rest with
      | .scopeStart :: rest2 =>
        match findScopeEnd rest2 1 with
        | some i => do
          let body ← optimizeF f (removeEmptyIfElseFor (rest2.take i))
          let cont ← optimizeF f (rest2.drop (i + 1))
          pure (.elseE c body.length :: (body ++ cont))
        | none => do
          let cont ← optimizeF f rest2
          pure (.elseE c 0 :: cont)
      | _ => none
    | .forE d b =>
      match rest with
      | .scopeStart :: rest2 =>
        match findScopeEnd rest2 1 with
        | some i => do
          let body ← optimizeF f (removeEmptyIfElseFor (rest2.take i))
          let cont ← optimizeF f (rest2.drop (i + 1))
          pure (.forE d b body.length :: (body ++ cont))
        | none => do
          let cont ← optimizeF f rest2
          pure (.forE d b 0 :: cont)
      | _ => none
    | .node ident =>
      let loads := rest.takeWhile isLoadP
      let after := rest.dropWhile isLoadP
      match after with
      | .scopeStart :: after2 =>
        match findScopeEnd after2 1 with
        | some i => do
          let body ← optimizeF f (removeEmptyIfElseFor (after2.take i))
          let cont ← optimizeF f (after2.drop (i + 1))
          pure (.node ident body.length :: (loads.map loadInstr ++ (body ++ cont)))
        | none => do
          let cont ← optimizeF f after2
          pure (.node ident 0 :: (loads.map loadInstr ++ cont))
      | _ => do
        let cont ← optimizeF f after
        pure (.node ident 0 :: (loads.map loadInstr ++ cont))
    | .loadText i => (optimizeF f rest).map (.loadText i :: ·)
    | .loadAttribute k v => (optimizeF f rest).map (.loadAttribute k v :: ·)
    | .eof => optimizeF f rest
    | .scopeStart => none
    | .scopeEnd => none

/-- The full `Optimizer::optimize` pipeline: the pre-pass followed by the
main loop, with always-sufficient fuel. -/
def optimize (input : List ParseExpr) : Option (List Instruction) :=
  optimizeF ((removeEmptyIfElseFor input).length + 1) (removeEmptyIfElseFor input)

/-- The flat parse-expression streams the statement parser can emit.
Modelled from the spec: the statement parser (`parsing/parser.rs`) is not
part of the given source tree; per section 4.3 of the spec it emits
`Node` lines followed by their contiguous `LoadAttribute`/`LoadText`
expressions, `If`/`Else`/`For` heads, a `ScopeStart`..`ScopeEnd` pair
around each deeper-indented block (which follows its head line and may be
absent when the line has no indented body), and a trailing `Eof`. -/
inductive GP : List ParseExpr → Prop where
  | nil : GP []
  | eofC (rest) : GP rest → GP (.eof :: rest)
  | ifOpen (c rest) : GP rest → rest.head? ≠ some .scopeStart →
      GP (.ifE c :: rest)
  | ifScoped (c body rest) : GP body → GP rest →
      GP (.ifE c :: .scopeStart :: (body ++ .scopeEnd :: rest))
  | elseOpen (c rest) : GP rest → rest.head? ≠ some .scopeStart →
      GP (.elseE c :: rest)
  | elseScoped (c body rest) : GP body → GP rest →
      GP (.elseE c :: .scopeStart :: (body ++ .scopeEnd :: rest))
  | forOpen (d b rest) : GP rest → rest.head? ≠ some .scopeStart →
      GP (.forE d b :: rest)
  | forScoped (d b body rest) : GP body → GP rest →
      GP (.forE d b :: .scopeStart :: (body ++ .scopeEnd :: rest))
  | nodeOpen (id loads rest) : (∀ x ∈ loads, isLoadP x = true) → GP rest →
      GP (.node id :: (loads ++ rest))
  | nodeScoped (id loads body rest) : (∀ x ∈ loads, isLoadP x = true) →
      GP body → GP rest →
      GP (.node id :: (loads ++ .scopeStart :: (body ++ .scopeEnd :: rest)))

/-- Well-formed instruction streams: the layout the optimizer actually
produces.  An `If`/`Else`/`For` head is immediately followed by exactly
`size` instructions forming its body; a `Node` head is immediately
followed by its `LoadAttribute`/`LoadText` run and then by exactly
`scope_size` body instructions; bodies are recursively well formed. -/
inductive WFStream : List Instruction → Prop where
  | nil : WFStream []
  | loadText (t rest) : WFStream rest → WFStream (.loadText t :: rest)
  | loadAttribute (k v rest) : WFStream rest →
      WFStream (.loadAttribute k v :: rest)
  | view (id rest) : WFStream rest → WFStream (.view id :: rest)
  | ifE (c body rest) : WFStream body → WFStream rest →
      WFStream (.ifE c body.length :: (body ++ rest))
  | elseE (c body rest) : WFStream body → WFStream rest →
      WFStream (.elseE c body.length :: (body ++ rest))
  | forE (d b body rest) : WFStream body → WFStream rest →
      WFStream (.forE d b body.length :: (body ++ rest))
  | node (id loads body rest) : (∀ l ∈ loads, isLoadI l = true) →
      WFStream body → WFStream rest →
      WFStream (.node id body.length :: (loads ++ (body ++ rest)))

/-- The reading of spec property 4 stated by claim C4: every sized head is
followed by exactly `size` (for `Node`: `scope_size`) instructions that
themselves form a well-balanced block, with the rest of the stream checked
the same way.  Fuelled like the optimizer; fuel `l.length + 1` suffices. -/
def claimSizedF : Nat → List Instruction → Bool
  | _, [] => true
  | 0, _ :: _ => false
  | f + 1, i :: rest =>
    match i with
    | .ifE _ s | .elseE _ s | .forE _ _ s | .node _ s =>
      decide (s ≤ rest.length) && claimSizedF f (rest.take s)
        && claimSizedF f (rest.drop s)
    | _ => claimSizedF f rest

/-- Wrapper for `claimSizedF` with sufficient fuel. -/
def claimSized (l : List Instruction) : Bool :=
  claimSizedF (l.length + 1) l

/-- Whether the stream contains an `If`, `Else` or `For` instruction with
an empty body. -/
def hasEmptyHead : List Instruction → Bool
  | [] => false
  | .ifE _ 0 :: _ => true
  | .elseE _ 0 :: _ => true
  | .forE _ _ 0 :: _ => true
  | _ :: rest => hasEmptyHead rest

/-!
Template assembler  (src/anathema-vm/src/scope.rs)

`Scope::exec` turns the instruction stream into `Template` trees.  The
constant pool lookups (`consts.lookup_string` and friends) resolve ids to
the interned values; since interning is injective the embedded templates
simply carry the ids.  `Attributes` is a string-keyed map built by
repeated `set`, embedded as an association list with insert-or-replace.
-/

/-- `Cond` from `anathema-widget-core`: the head of one control-flow arm. -/
inductive Cond where
  | ifC (cond : Nat)
  | elseC (cond : Option Nat)
deriving DecidableEq

/-- `Template`: the tree the assembler produces.  A `controlFlow` carries
its arms as `(head, body)` pairs. -/
inductive Template where
  | node (ident : Nat) (attributes : List (Nat × Nat)) (text : Option Nat)
      (children : List Template)
  | loop (binding data : Nat) (body : List Template)
  | controlFlow (arms : List (Cond × List Template))
  | view (id : Nat)

/-- `Attributes::set`: insert or replace the binding for `key`.
Modelled from the spec: the `Attributes` type is not under the given
source tree; spec section 3 describes attributes as a key-to-expression
map, so `set` replaces an existing binding and appends a new one. -/
def attrSet : List (Nat × Nat) → Nat → Nat → List (Nat × Nat)
  | [], key, value => [(key, value)]
  | (k, v) :: rest, key, value =>
    if k = key then (k, value) :: rest else (k, v) :: attrSet rest key value

/-- The attribute/text prefix loop of `Scope::node`, processing the load
instructions in stream order: each `LoadAttribute` is `set` into the
attribute map (a later binding for the same key wins) and each
`LoadText` replaces the optional text id (the last one wins). -/
def nodeLoadsGo : List (Nat × Nat) × Option Nat → List Instruction →
    List (Nat × Nat) × Option Nat
  | acc, [] => acc
  | (attrs, text), .loadAttribute k v :: rest =>
    nodeLoadsGo (attrSet attrs k v, text) rest
  | (attrs, _), .loadText t :: rest => nodeLoadsGo (attrs, some t) rest
  | acc, _ :: _ => acc

/-- The attribute map and text id collected from a load-instruction run. -/
def nodeLoads (l : List Instruction) : List (Nat × Nat) × Option Nat :=
  nodeLoadsGo ([], none) l

/- `Scope::exec` and `Scope::node` (scope.rs lines 23..153), fuelled.
`none` embeds the panics: the `unreachable!()` arms for a top-level
`Else` or a stray `LoadAttribute`/`LoadText`, and the `Vec::drain` range
panic when a `size` exceeds the remaining instruction count.  `elsesF`
is the inner loop of the `If` arm of `exec` (scope.rs lines 84..98): it
PEEKS the next instruction with `instructions.get(0)` and, when it is an
`Else`, calls `instructions.drain(..size)` WITHOUT first removing the
peeked `Else`, so the drained arm body starts with the `Else` head
itself; the loop then recurses via `Scope::new(body).exec()` on that
drained list.  (Consequently, for `size` of at least 1 the recursive
call meets the `Else` head and panics at the `unreachable!` of scope.rs
line 104, and for `size = 0` nothing is drained and the loop re-peeks
the same `Else` forever; the fuel models that divergence by running
out.)  The main loop resumes on whatever the else loop leaves behind. -/
mutual

def execF : Nat → List Instruction → Option (List Template)
  | _, [] => some []
  | 0, _ :: _ => none
  | f + 1, i :: rest =>
    match i with
    | .view id => (execF f rest).map (.view id :: ·)
    | .node ident scopeSize =>
      let loads := rest.takeWhile isLoadI
      let after := rest.dropWhile isLoadI
      if scopeSize ≤ after.length then do
        let children ← execF f (after.take scopeSize)
        let ts ← execF f (after.drop scopeSize)
        let (attrs, text) := nodeLoads loads
        pure (.node ident attrs text children :: ts)
      else none
    | .forE data binding size =>
      if size ≤ rest.length then do
        let body ← execF f (rest.take size)
        let ts ← execF f (rest.drop size)
        pure (.loop binding data body :: ts)
      else none
    | .ifE cond size =>
      if size ≤ rest.length then do
        let body ← execF f (rest.take size)
        let (arms, rem) ← elsesF f [(Cond.ifC cond, body)] (rest.drop size)
        let ts ← execF f rem
        pure (.controlFlow arms :: ts)
      else none
    | .elseE _ _ => none
    | .loadText _ => none
    | .loadAttribute _ _ => none

def elsesF : Nat → List (Cond × List Template) → List Instruction →
    Option (List (Cond × List Template) × List Instruction)
  | _, arms, [] => some (arms, [])
  | 0, _, _ :: _ => none
  | f + 1, arms, l =>
    match l with
    | .elseE cond size :: rest =>
      if size ≤ (Instruction.elseE cond size :: rest).length then do
        let body ← execF f ((Instruction.elseE cond size :: rest).take size)
        elsesF f (arms ++ [(Cond.elseC cond, body)])
          ((Instruction.elseE cond size :: rest).drop size)
      else none
    | _ => some (arms, l)

end

/-- `Scope::exec` with always-sufficient fuel. -/
def exec (instructions : List Instruction) : Option (List Template) :=
  execF (instructions.length + 1) instructions

/-!
Expression parser  (src/anathema-compiler/src/parsing/pratt/mod.rs)

The Pratt parser over the token kinds of `token.rs`.  Token positions are
irrelevant to it (the embedded functions never read them), so tokens are
embedded by their `Kind` and the token cursor by the list of remaining
kinds; `Tokens::next` yields `Eof` once the list is exhausted.  The
`pratt/mod.rs` value match expects a `Color` variant, so the token value
type below follows that match (the `Float`/`Index`/`Hex` values of
`token.rs` all fall into the `_ => panic!` arm either way; a float payload
is carried as an opaque `Nat` since floating point is not embeddable, and
it is never inspected).
-/

/-- `Operator` from `token.rs`, plus the `LCurly`/`RCurly` pair that
`pratt/mod.rs` matches on. -/
inductive Op where
  | lparen | rparen | lbracket | rbracket | lcurly | rcurly
  | ldoubleCurly | rdoubleCurly
  | plus | minus | mul | div | modulo
  | plusEqual | minusEqual | mulEqual | divEqual | modEqual
  | equal | equalEqual
  | lessThan | lessThanEq | greaterThan | greaterThanEq
  | bang | logicalAnd | logicalOr
  | dot | comma | colon
deriving DecidableEq

/-- The token value kinds matched by `expr_bp`. -/
inductive TokValue where
  | number (n : Nat)
  | float (repr : Nat)
  | ident (sid : Nat)
  | str (sid : Nat)
  | bool (b : Bool)
  | color (c : Nat)
  | index (i : Nat)
deriving DecidableEq

/-- Token kinds from `token.rs`. -/
inductive Kind where
  | forK | inK | ifK | elseK | viewK
  | newline
  | indent (n : Nat)
  | value (v : TokValue)
  | op (o : Op)
  | eofK
deriving DecidableEq

/-- The precedence table `get_precedence` (pratt/mod.rs lines 23..38),
with the `prec` constants inlined: assignment 1, conditional 2, logical 3,
sum 4, product 5, call 9, subscript 10, everything else 0. -/
def getPrecedence : Op → Nat
  | .equal => 1
  | .greaterThan | .greaterThanEq | .lessThan | .lessThanEq => 3
  | .logicalOr | .logicalAnd | .equalEqual => 2
  | .plus | .minus => 4
  | .mul | .div | .modulo => 5
  | .lparen => 9
  | .dot => 10
  | .lbracket => 10
  | _ => 0

/-- The expression tree `Expr` built by the Pratt parser. -/
inductive PExpr where
  | unary (op : Op) (e : PExpr)
  | binary (lhs rhs : PExpr) (op : Op)
  | boolE (b : Bool)
  | num (n : Nat)
  | color (c : Nat)
  | ident (sid : Nat)
  | strE (sid : Nat)
  | call (fn : PExpr) (args : List PExpr)
  | array (lhs index : PExpr)
  | list (es : List PExpr)
  | mapE (es : List (PExpr × PExpr))

/-- The panic sites of `expr_bp` and its helpers.  `outOfFuel` is the
fuel-exhaustion marker of this embedding and is never reached with the
fuel supplied by `prattExpr`. -/
inductive PrattFail where
  | missingRParen
  | invalidToken
  | unexpectedEof
  | unhandledValue
  | unhandledToken
  | outOfFuel
deriving DecidableEq

/-- `Tokens::next_no_indent`: skip indent tokens and pop the next kind,
yielding `Eof` when the stream is exhausted. -/
def nextNoIndent : List Kind → Kind × List Kind
  | [] => (.eofK, [])
  | .indent _ :: rest => nextNoIndent rest
  | t :: rest => (t, rest)

/-- `Tokens::peek_skip_indent`: consume leading indent tokens, then peek. -/
def skipIndent : List Kind → List Kind
  | .indent _ :: rest => skipIndent rest
  | l => l

/- `expr_bp` (pratt/mod.rs lines 111..191) and its helpers
`parse_function`, `parse_collection`, `parse_map`, fuelled.  `exprAtom` is
the prefix match at the top of `expr_bp`; `exprLoop` is its
binary/postfix loop, entered with the atom as the accumulated left
operand.  Each `.error` is one of the Rust panics: the `assert!` on the
closing paren, the `panic!("invalid token")` after an index expression,
`panic!("unexpected eof")`, and the two catch-all `panic!` arms for
unhandled values and token kinds. -/
mutual

def exprAtom : Nat → List Kind → Except PrattFail (PExpr × List Kind)
  | 0, _ => .error .outOfFuel
  | f + 1, tokens =>
    match nextNoIndent tokens with
    | (.op .lbracket, rest) => parseCollection f [] rest
    | (.op .lcurly, rest) => parseMap f [] rest
    | (.op .lparen, rest) => do
      let (left, rest) ← exprBp f 0 rest
      match nextNoIndent rest with
      | (.op .rparen, rest) => pure (left, rest)
      | _ => .error .missingRParen
    | (.op o, rest) => do
      let (e, rest) ← exprBp f 7 rest
      pure (.unary o e, rest)
    | (.value v, rest) =>
      match v with
      | .number n => pure (.num n, rest)
      | .ident sid => pure (.ident sid, rest)
      | .str sid => pure (.strE sid, rest)
      | .bool b => pure (.boolE b, rest)
      | .color c => pure (.color c, rest)
      | _ => .error .unhandledValue
    | (.eofK, _) => .error .unexpectedEof
    | (_, _) => .error .unhandledToken

def exprBp : Nat → Nat → List Kind → Except PrattFail (PExpr × List Kind)
  | 0, _, _ => .error .outOfFuel
  | f + 1, precedence, tokens => do
    let (left, rest) ← exprAtom f tokens
    exprLoop f precedence left rest

def exprLoop : Nat → Nat → PExpr → List Kind →
    Except PrattFail (PExpr × List Kind)
  | 0, _, _, _ => .error .outOfFuel
  | f + 1, precedence, left, tokens =>
    let toks := skipIndent tokens
    match toks with
    | .op o :: rest =>
      if precedence ≥ getPrecedence o then pure (left, toks)
      else
        match o with
        | .lparen => do
          let (left, rest) ← parseFunction f left [] rest
          exprLoop f precedence left rest
        | .lbracket => do
          let (index, rest) ← exprBp f 0 rest
          match nextNoIndent rest with
          | (.op .rbracket, rest) =>
            exprLoop f precedence (.array left index) rest
          | _ => .error .invalidToken
        | _ => do
          let (right, rest) ← exprBp f (getPrecedence o) rest
          exprLoop f precedence (.binary left right o) rest
    | _ => pure (left, toks)

def parseFunction : Nat → PExpr → List PExpr → List Kind →
    Except PrattFail (PExpr × List Kind)
  | 0, _, _, _ => .error .outOfFuel
  | f + 1, fn, args, tokens =>
    match skipIndent tokens with
    | .op .comma :: rest => parseFunction f fn args rest
    | .op .rparen :: rest => pure (.call fn args, rest)
    | toks => do
      let (arg, rest) ← exprBp f 0 toks
      parseFunction f fn (args ++ [arg]) rest

def parseCollection : Nat → List PExpr → List Kind →
    Except PrattFail (PExpr × List Kind)
  | 0, _, _ => .error .outOfFuel
  | f + 1, elements, tokens =>
    match skipIndent tokens with
    | .op .comma :: rest => parseCollection f elements rest
    | .op .rbracket :: rest => pure (.list elements, rest)
    | toks => do
      let (e, rest) ← exprBp f 0 toks
      parseCollection f (elements ++ [e]) rest

def parseMap : Nat → List (PExpr × PExpr) → List Kind →
    Except PrattFail (PExpr × List Kind)
  | 0, _, _ => .error .outOfFuel
  | f + 1, elements, tokens =>
    match skipIndent tokens with
    | .op .comma :: rest => parseMap f elements rest
    | .op .rcurly :: rest => pure (.mapE elements, rest)
    | toks => do
      let (key, rest) ← exprBp f 0 toks
      match skipIndent rest with
      | .op .colon :: rest2 => do
        let (value, rest3) ← exprBp f 0 rest2
        parseMap f (elements ++ [(key, value)]) rest3
      | rest2 => pure (.mapE elements, rest2)

end

/-- `expr`: parse from the lowest precedence, with generous fuel (each
fuel tick either consumes a token or hands over to a sub-parser that
does, so four ticks per token plus a constant is ample for the concrete
runs in this file). -/
def prattExpr (tokens : List Kind) : Except PrattFail (PExpr × List Kind) :=
  exprBp (4 * tokens.length + 8) 0 tokens

/-!
Theorems

General list helpers first, then the shared lemmas about each embedded
component, then one theorem per claim (with witnesses and
counterexamples where required).
-/

theorem take_len_append {α : Type} (a b : List α) :
    (a ++ b).take a.length = a := by
  induction a with
  | nil => rfl
  | cons x xs ih => simp [ih]

theorem drop_len_append {α : Type} (a b : List α) :
    (a ++ b).drop a.length = b := by
  induction a with
  | nil => rfl
  | cons x xs ih => simp [ih]

theorem drop_len_succ_append {α : Type} (a : List α) (x : α) (b : List α) :
    (a ++ x :: b).drop (a.length + 1) = b := by
  induction a with
  | nil => rfl
  | cons y ys ih => simp [ih]

theorem take_take_le {α : Type} :
    ∀ (l : List α) (m k : Nat), m ≤ k → (l.take k).take m = l.take m := by
  intro l
  induction l with
  | nil => intro m k _; simp
  | cons x xs ih =>
    intro m k hmk
    cases m with
    | zero => simp
    | succ m =>
      cases k with
      | zero => omega
      | succ k => simpa using ih m k (by omega)

/-!
Value model and NodeId
-/

/-- C1: evaluation of `ValueRef::is_true` at the inputs claim C1 speaks
about.  The claim (and spec section 4.7) says a non-empty string and a
non-zero number are truthy and an empty string falsy; the code maps the
string case through `s.is_empty()` without negation and sends every
number to the catch-all `false` arm, so a non-empty string is falsy, the
empty string is truthy, and the non-zero number 1 is falsy.  Only
`Owned::Bool` behaves as the claim states. -/
theorem valueRef_is_true_evaluation :
    ValueRef.is_true (.str "a") = false
      ∧ ValueRef.is_true (.str "") = true
      ∧ ValueRef.is_true (.owned (.num (.unsigned 1))) = false
      ∧ ValueRef.is_true (.owned (.num (.unsigned 0))) = false
      ∧ ValueRef.is_true (.owned (.bool true)) = true
      ∧ ValueRef.is_true (.owned (.bool false)) = false
      ∧ ValueRef.is_true (.map 0) = false
      ∧ ValueRef.is_true (.list 0) = false
      ∧ ValueRef.is_true (.expressions 0) = false := by
  decide

/-- C9 counterexample: comparing a string reference against a map
reference does not return `false` as the claim states; the comparison
falls into the `panic!("need equality for Collection trait")` arm,
embedded as `none`. -/
theorem valueRefEq_str_map_no_false :
    valueRefEq (.str "") (.map 0) ≠ some false
      ∧ valueRefEq (.str "") (.map 0) = none := by
  decide

/-- C9 (amended): for every pair of `ValueRef` values of different
shapes, the `PartialEq` implementation does not return a boolean at all:
it panics in the catch-all arm (`none` in this embedding).  Equality only
evaluates for `Str`/`Str` and `Owned`/`Owned` pairs. -/
theorem valueRefEq_cross_shape (v w : ValueRef)
    (h : v.shape ≠ w.shape) : valueRefEq v w = none := by
  cases v <;> cases w <;> first
    | rfl
    | exact absurd rfl h

/-- C9 witness: the amended theorem applied to a concrete cross-shape
pair. -/
theorem valueRefEq_cross_shape_witness :
    (ValueRef.str "x").shape ≠ (ValueRef.owned (.bool true)).shape
      ∧ valueRefEq (.str "x") (.owned (.bool true)) = none :=
  ⟨by decide, valueRefEq_cross_shape (.str "x") (.owned (.bool true)) (by decide)⟩

/-- C10: `NodeId == [usize]` truncates both sides to the shorter length
and compares only that common part (first conjunct, definitional);
consequently a node id compares equal to each of its own truncations, to
every extension of itself, and to the empty root sequence. -/
theorem nodeIdEq_common_part_only :
    (∀ a b : List Nat,
      nodeIdEq a b
        = decide (a.take (Nat.min a.length b.length)
            = b.take (Nat.min a.length b.length)))
      ∧ (∀ (n : List Nat) (k : Nat), nodeIdEq n (n.take k) = true)
      ∧ (∀ n t : List Nat, nodeIdEq n (n ++ t) = true)
      ∧ (∀ n : List Nat, nodeIdEq n [] = true) := by
  refine ⟨fun a b => rfl, fun n k => ?_, fun n t => ?_, fun n => ?_⟩
  · simp only [nodeIdEq, decide_eq_true_eq]
    rw [take_take_le n _ k
      (le_trans (Nat.min_le_right _ _) (List.length_take_le _ _))]
  · have hmin : Nat.min n.length (n ++ t).length = n.length := by
      rw [List.length_append]; exact Nat.min_eq_left (Nat.le_add_right _ _)
    simp only [nodeIdEq, hmin, decide_eq_true_eq, List.take_length]
    exact (take_len_append n t).symm
  · simp [nodeIdEq]

/-!
Optimizer pre-pass lemmas

`removeEmptyIfElseFor` embeds `remove_empty_if_else_for`; these lemmas describe how it
distributes over the shapes `GP` builds.
-/

theorem isLoadP_not_head {e : ParseExpr} (h : isLoadP e = true) :
    isHead e = false := by
  cases e <;> simp_all [isLoadP, isHead]

theorem reh_cons_nonhead {e : ParseExpr} (h : isHead e = false)
    (l : List ParseExpr) : removeEmptyIfElseFor (e :: l) = e :: removeEmptyIfElseFor l := by
  simp [removeEmptyIfElseFor, h]

theorem reh_cons_head_scope {e : ParseExpr} (h : isHead e = true)
    (l : List ParseExpr) :
    removeEmptyIfElseFor (e :: .scopeStart :: l) = e :: removeEmptyIfElseFor (.scopeStart :: l) := by
  simp [removeEmptyIfElseFor, h]

theorem reh_cons_head_other {e : ParseExpr} (h : isHead e = true)
    (l : List ParseExpr) (hl : l.head? ≠ some .scopeStart) :
    removeEmptyIfElseFor (e :: l) = removeEmptyIfElseFor l := by
  cases l with
  | nil => simp [removeEmptyIfElseFor, h]
  | cons x l =>
    cases x <;> simp_all [removeEmptyIfElseFor, h]

theorem reh_append (a b : List ParseExpr)
    (hb : b.head? ≠ some ParseExpr.scopeStart) :
    removeEmptyIfElseFor (a ++ b) = removeEmptyIfElseFor a ++ removeEmptyIfElseFor b := by
  induction a with
  | nil => simp [removeEmptyIfElseFor]
  | cons e a ih =>
    by_cases hh : isHead e = true
    · cases a with
      | nil =>
        rw [List.nil_append] at ih
        simp only [List.cons_append, List.nil_append]
        rw [reh_cons_head_other hh b hb, reh_cons_head_other hh [] (by simp)]
        simp [removeEmptyIfElseFor]
      | cons x a2 =>
        cases hx : x with
        | scopeStart =>
          subst hx
          simp only [List.cons_append]
          rw [reh_cons_head_scope hh, reh_cons_head_scope hh]
          simp only [List.cons_append] at ih
          rw [ih]
          rfl
        | _ =>
          subst hx
          simp only [List.cons_append]
          rw [reh_cons_head_other hh _ (by simp),
            reh_cons_head_other hh _ (by simp)]
          simpa using ih
    · have hh2 : isHead e = false := by
        cases h : isHead e
        · rfl
        · exact absurd h hh
      simp only [List.cons_append]
      rw [reh_cons_nonhead hh2, reh_cons_nonhead hh2]
      simp [ih]

theorem reh_length_le : ∀ l : List ParseExpr, (removeEmptyIfElseFor l).length ≤ l.length := by
  intro l
  induction l with
  | nil => simp [removeEmptyIfElseFor]
  | cons e rest ih =>
    by_cases hh : isHead e = true
    · cases rest with
      | nil =>
        rw [reh_cons_head_other hh [] (by simp)]
        simpa [removeEmptyIfElseFor] using Nat.le_succ_of_le ih
      | cons x rest2 =>
        cases hx : x with
        | scopeStart =>
          subst hx
          rw [reh_cons_head_scope hh]
          simpa using ih
        | _ =>
          subst hx
          rw [reh_cons_head_other hh _ (by simp)]
          exact Nat.le_succ_of_le ih
    · have hh2 : isHead e = false := by
        cases h : isHead e
        · rfl
        · exact absurd h hh
      rw [reh_cons_nonhead hh2]
      simpa using ih

theorem reh_head_not_scopeStart :
    ∀ l : List ParseExpr, l.head? ≠ some ParseExpr.scopeStart →
      (removeEmptyIfElseFor l).head? ≠ some ParseExpr.scopeStart := by
  intro l
  induction l with
  | nil => intro h; simpa [removeEmptyIfElseFor] using h
  | cons e rest ih =>
    intro h
    by_cases hh : isHead e = true
    · cases hrest : rest.head? with
      | none =>
        have : rest = [] := by cases rest <;> simp_all
        subst this
        rw [reh_cons_head_other hh [] (by simp)]
        simp [removeEmptyIfElseFor]
      | some x =>
        cases hx : x with
        | scopeStart =>
          subst hx
          have : ∃ rest2, rest = ParseExpr.scopeStart :: rest2 := by
            cases rest <;> simp_all
          obtain ⟨rest2, hr2⟩ := this
          subst hr2
          rw [reh_cons_head_scope hh]
          simpa using h
        | _ =>
          subst hx
          rw [reh_cons_head_other hh rest (by simp [hrest])]
          exact ih (by simp [hrest])
    · have hh2 : isHead e = false := by
        cases h2 : isHead e
        · rfl
        · exact absurd h2 hh
      rw [reh_cons_nonhead hh2]
      simpa using h

theorem reh_loads_append (a b : List ParseExpr)
    (ha : ∀ x ∈ a, isLoadP x = true) :
    removeEmptyIfElseFor (a ++ b) = a ++ removeEmptyIfElseFor b := by
  induction a with
  | nil => simp
  | cons e a ih =>
    have he : isHead e = false := isLoadP_not_head (ha e (by simp))
    simp only [List.cons_append]
    rw [reh_cons_nonhead he]
    simp [ih (fun x hx => ha x (by simp [hx]))]

/-!
headsScoped lemmas
-/

theorem headsScoped_cons_nonhead {e : ParseExpr} (h : isHead e = false)
    (l : List ParseExpr) : headsScoped (e :: l) = headsScoped l := by
  simp [headsScoped, h]

theorem headsScoped_append_right (a b : List ParseExpr)
    (h : headsScoped (a ++ b) = true) : headsScoped b = true := by
  induction a with
  | nil => simpa using h
  | cons e a ih =>
    apply ih
    simp only [List.cons_append, headsScoped, Bool.and_eq_true] at h
    exact h.2

theorem headsScoped_append_left (a b : List ParseExpr)
    (h : headsScoped (a ++ b) = true)
    (hb : b.head? ≠ some ParseExpr.scopeStart) : headsScoped a = true := by
  induction a with
  | nil => rfl
  | cons e a ih =>
    simp only [List.cons_append, headsScoped, Bool.and_eq_true] at h
    have h2 := ih h.2
    simp only [headsScoped, Bool.and_eq_true]
    refine ⟨?_, h2⟩
    rcases h with ⟨h1, _⟩
    by_cases hh : isHead e = true
    · simp only [hh, if_true] at h1 ⊢
      cases a with
      | nil =>
        cases b with
        | nil => exact h1
        | cons x b2 => cases x <;> simp_all
      | cons y a2 =>
        cases y <;> first
          | exact h1
          | (simp only [isHead] at hh; cases hh)
          | (simp at h1)
    · simp [hh]

theorem headsScoped_cons_head_scope {e : ParseExpr} (h : isHead e = true)
    (l : List ParseExpr) :
    headsScoped (e :: .scopeStart :: l) = headsScoped l := by
  simp [headsScoped, h, isHead]

theorem reh_headsScoped : ∀ l : List ParseExpr,
    headsScoped (removeEmptyIfElseFor l) = true := by
  intro l
  induction l with
  | nil => rfl
  | cons e rest ih =>
    by_cases hh : isHead e = true
    · cases rest with
      | nil =>
        rw [reh_cons_head_other hh [] (by simp)]
        rfl
      | cons x rest2 =>
        cases hx : x with
        | scopeStart =>
          subst hx
          have hr : removeEmptyIfElseFor (ParseExpr.scopeStart :: rest2)
              = ParseExpr.scopeStart :: removeEmptyIfElseFor rest2 :=
            reh_cons_nonhead (by simp [isHead]) rest2
          rw [reh_cons_head_scope hh, hr, headsScoped_cons_head_scope hh]
          rw [hr, headsScoped_cons_nonhead (by simp [isHead] : isHead ParseExpr.scopeStart = false)] at ih
          exact ih
        | _ =>
          subst hx
          rw [reh_cons_head_other hh _ (by simp)]
          exact ih
    · have hh2 : isHead e = false := by
        cases h2 : isHead e
        · rfl
        · exact absurd h2 hh
      rw [reh_cons_nonhead hh2, headsScoped_cons_nonhead hh2]
      exact ih

theorem reh_id_of_headsScoped : ∀ l : List ParseExpr,
    headsScoped l = true → removeEmptyIfElseFor l = l := by
  intro l
  induction l with
  | nil => intro _; rfl
  | cons e rest ih =>
    intro h
    simp only [headsScoped, Bool.and_eq_true] at h
    rcases h with ⟨h1, h2⟩
    by_cases hh : isHead e = true
    · simp only [hh, if_true] at h1
      cases rest with
      | nil => simp at h1
      | cons x rest2 =>
        cases hx : x with
        | scopeStart =>
          subst hx
          rw [reh_cons_head_scope hh, ih h2]
        | _ => subst hx; simp at h1
    · have hh2 : isHead e = false := by
        cases h3 : isHead e
        · rfl
        · exact absurd h3 hh
      rw [reh_cons_nonhead hh2, ih h2]

/-!
GP lemmas and findScopeEnd transparency
-/

theorem gp_head {r : List ParseExpr} (h : GP r) :
    ∀ x, r.head? = some x →
      isLoadP x = false ∧ x ≠ ParseExpr.scopeStart ∧ x ≠ ParseExpr.scopeEnd := by
  intro x hx
  cases h <;> first
    | (rw [List.head?_cons, Option.some_inj] at hx
       subst hx
       simp [isLoadP])
    | exact absurd hx (by simp)

theorem gp_head_not_scopeStart {r : List ParseExpr} (h : GP r) :
    r.head? ≠ some ParseExpr.scopeStart := by
  intro hx
  exact (gp_head h _ hx).2.1 rfl

theorem gp_reh {l : List ParseExpr} (h : GP l) : GP (removeEmptyIfElseFor l) := by
  induction h with
  | nil => exact GP.nil
  | eofC rest _ ih =>
    rw [reh_cons_nonhead (by simp [isHead]) rest]
    exact GP.eofC _ ih
  | ifOpen c rest _ hns ih =>
    rw [reh_cons_head_other (by simp [isHead]) rest hns]
    exact ih
  | ifScoped c body rest _ _ ihb ihr =>
    rw [reh_cons_head_scope (by simp [isHead]),
      reh_cons_nonhead (by simp [isHead]),
      reh_append body _ (by simp),
      reh_cons_nonhead (by simp [isHead])]
    exact GP.ifScoped c _ _ ihb ihr
  | elseOpen c rest _ hns ih =>
    rw [reh_cons_head_other (by simp [isHead]) rest hns]
    exact ih
  | elseScoped c body rest _ _ ihb ihr =>
    rw [reh_cons_head_scope (by simp [isHead]),
      reh_cons_nonhead (by simp [isHead]),
      reh_append body _ (by simp),
      reh_cons_nonhead (by simp [isHead])]
    exact GP.elseScoped c _ _ ihb ihr
  | forOpen d b rest _ hns ih =>
    rw [reh_cons_head_other (by simp [isHead]) rest hns]
    exact ih
  | forScoped d b body rest _ _ ihb ihr =>
    rw [reh_cons_head_scope (by simp [isHead]),
      reh_cons_nonhead (by simp [isHead]),
      reh_append body _ (by simp),
      reh_cons_nonhead (by simp [isHead])]
    exact GP.forScoped d b _ _ ihb ihr
  | nodeOpen id loads rest hloads hrest ih =>
    rw [reh_cons_nonhead (by simp [isHead]),
      reh_loads_append loads rest hloads]
    exact GP.nodeOpen id loads _ hloads ih
  | nodeScoped id loads body rest hloads _ _ ihb ihr =>
    rw [reh_cons_nonhead (by simp [isHead]),
      reh_loads_append loads _ hloads,
      reh_cons_nonhead (by simp [isHead]),
      reh_append body _ (by simp),
      reh_cons_nonhead (by simp [isHead])]
    exact GP.nodeScoped id loads _ _ hloads ihb ihr

theorem fse_cons_other {e : ParseExpr} (he1 : e ≠ ParseExpr.scopeStart)
    (he2 : e ≠ ParseExpr.scopeEnd) (l : List ParseExpr) (level : Nat) :
    findScopeEnd (e :: l) level = (findScopeEnd l level).map (· + 1) := by
  cases e <;> simp_all [findScopeEnd]

theorem fse_loads (a X : List ParseExpr) (level : Nat)
    (ha : ∀ x ∈ a, isLoadP x = true) :
    findScopeEnd (a ++ X) level = (findScopeEnd X level).map (· + a.length) := by
  induction a with
  | nil => cases hm : findScopeEnd X level <;> simp [hm]
  | cons e a ih =>
    have he := ha e (by simp)
    have h1 : e ≠ ParseExpr.scopeStart := by cases e <;> simp_all [isLoadP]
    have h2 : e ≠ ParseExpr.scopeEnd := by cases e <;> simp_all [isLoadP]
    rw [List.cons_append, fse_cons_other h1 h2,
      ih (fun x hx => ha x (by simp [hx]))]
    cases hm : findScopeEnd X level <;> simp [hm] <;> omega

theorem fse_transparent {l : List ParseExpr} (h : GP l) :
    ∀ (m : List ParseExpr) (level : Nat), 1 ≤ level →
      findScopeEnd (l ++ m) level
        = (findScopeEnd m level).map (· + l.length) := by
  induction h with
  | nil =>
    intro m level _
    cases hm : findScopeEnd m level <;> simp [hm]
  | eofC rest _ ih =>
    intro m level hl
    rw [List.cons_append, fse_cons_other (by simp) (by simp), ih m level hl]
    cases hm : findScopeEnd m level <;> simp [hm] <;> omega
  | ifOpen c rest _ _ ih =>
    intro m level hl
    rw [List.cons_append, fse_cons_other (by simp) (by simp), ih m level hl]
    cases hm : findScopeEnd m level <;> simp [hm] <;> omega
  | ifScoped c body rest _ _ ihb ihr =>
    intro m level hl
    have hne : ¬(level + 1 = 1) := by omega
    rw [List.cons_append, fse_cons_other (by simp) (by simp)]
    rw [List.cons_append, show findScopeEnd (ParseExpr.scopeStart
        :: (body ++ ParseExpr.scopeEnd :: rest ++ m)) level
      = (findScopeEnd (body ++ ParseExpr.scopeEnd :: rest ++ m)
          (level + 1)).map (· + 1) from rfl]
    rw [show body ++ ParseExpr.scopeEnd :: rest ++ m
      = body ++ (ParseExpr.scopeEnd :: (rest ++ m)) by simp]
    rw [ihb (ParseExpr.scopeEnd :: (rest ++ m)) (level + 1) (by omega)]
    rw [show findScopeEnd (ParseExpr.scopeEnd :: (rest ++ m)) (level + 1)
      = (findScopeEnd (rest ++ m) level).map (· + 1) by
        simp [findScopeEnd, hne]]
    rw [ihr m level hl]
    cases hm : findScopeEnd m level <;> simp [hm] <;> omega
  | elseOpen c rest _ _ ih =>
    intro m level hl
    rw [List.cons_append, fse_cons_other (by simp) (by simp), ih m level hl]
    cases hm : findScopeEnd m level <;> simp [hm] <;> omega
  | elseScoped c body rest _ _ ihb ihr =>
    intro m level hl
    have hne : ¬(level + 1 = 1) := by omega
    rw [List.cons_append, fse_cons_other (by simp) (by simp)]
    rw [List.cons_append, show findScopeEnd (ParseExpr.scopeStart
        :: (body ++ ParseExpr.scopeEnd :: rest ++ m)) level
      = (findScopeEnd (body ++ ParseExpr.scopeEnd :: rest ++ m)
          (level + 1)).map (· + 1) from rfl]
    rw [show body ++ ParseExpr.scopeEnd :: rest ++ m
      = body ++ (ParseExpr.scopeEnd :: (rest ++ m)) by simp]
    rw [ihb (ParseExpr.scopeEnd :: (rest ++ m)) (level + 1) (by omega)]
    rw [show findScopeEnd (ParseExpr.scopeEnd :: (rest ++ m)) (level + 1)
      = (findScopeEnd (rest ++ m) level).map (· + 1) by
        simp [findScopeEnd, hne]]
    rw [ihr m level hl]
    cases hm : findScopeEnd m level <;> simp [hm] <;> omega
  | forOpen d b rest _ _ ih =>
    intro m level hl
    rw [List.cons_append, fse_cons_other (by simp) (by simp), ih m level hl]
    cases hm : findScopeEnd m level <;> simp [hm] <;> omega
  | forScoped d b body rest _ _ ihb ihr =>
    intro m level hl
    have hne : ¬(level + 1 = 1) := by omega
    rw [List.cons_append, fse_cons_other (by simp) (by simp)]
    rw [List.cons_append, show findScopeEnd (ParseExpr.scopeStart
        :: (body ++ ParseExpr.scopeEnd :: rest ++ m)) level
      = (findScopeEnd (body ++ ParseExpr.scopeEnd :: rest ++ m)
          (level + 1)).map (· + 1) from rfl]
    rw [show body ++ ParseExpr.scopeEnd :: rest ++ m
      = body ++ (ParseExpr.scopeEnd :: (rest ++ m)) by simp]
    rw [ihb (ParseExpr.scopeEnd :: (rest ++ m)) (level + 1) (by omega)]
    rw [show findScopeEnd (ParseExpr.scopeEnd :: (rest ++ m)) (level + 1)
      = (findScopeEnd (rest ++ m) level).map (· + 1) by
        simp [findScopeEnd, hne]]
    rw [ihr m level hl]
    cases hm : findScopeEnd m level <;> simp [hm] <;> omega
  | nodeOpen id loads rest hloads _ ih =>
    intro m level hl
    rw [List.cons_append, fse_cons_other (by simp) (by simp)]
    rw [List.append_assoc]
    rw [fse_loads loads (rest ++ m) level hloads, ih m level hl]
    cases hm : findScopeEnd m level <;> simp [hm] <;> omega
  | nodeScoped id loads body rest hloads _ _ ihb ihr =>
    intro m level hl
    have hne : ¬(level + 1 = 1) := by omega
    rw [List.cons_append, fse_cons_other (by simp) (by simp)]
    rw [List.append_assoc]
    rw [fse_loads loads _ level hloads]
    rw [List.cons_append, show findScopeEnd (ParseExpr.scopeStart
        :: (body ++ ParseExpr.scopeEnd :: rest ++ m)) level
      = (findScopeEnd (body ++ ParseExpr.scopeEnd :: rest ++ m)
          (level + 1)).map (· + 1) from rfl]
    rw [show body ++ ParseExpr.scopeEnd :: rest ++ m
      = body ++ (ParseExpr.scopeEnd :: (rest ++ m)) by simp]
    rw [ihb (ParseExpr.scopeEnd :: (rest ++ m)) (level + 1) (by omega)]
    rw [show findScopeEnd (ParseExpr.scopeEnd :: (rest ++ m)) (level + 1)
      = (findScopeEnd (rest ++ m) level).map (· + 1) by
        simp [findScopeEnd, hne]]
    rw [ihr m level hl]
    cases hm : findScopeEnd m level <;> simp [hm] <;> omega

/-!
Optimizer well-formedness
-/

theorem loadInstr_isLoadI {y : ParseExpr} (h : isLoadP y = true) :
    isLoadI (loadInstr y) = true := by
  cases y <;> simp_all [isLoadP, loadInstr, isLoadI]

theorem loads_map_isLoadI {loads : List ParseExpr}
    (h : ∀ x ∈ loads, isLoadP x = true) :
    ∀ x ∈ loads.map loadInstr, isLoadI x = true := by
  intro x hx
  rw [List.mem_map] at hx
  obtain ⟨y, hy, rfl⟩ := hx
  exact loadInstr_isLoadI (h y hy)

theorem headsScoped_loads_append (a b : List ParseExpr)
    (ha : ∀ x ∈ a, isLoadP x = true) :
    headsScoped (a ++ b) = headsScoped b := by
  induction a with
  | nil => simp
  | cons e a ih =>
    have he : isHead e = false := isLoadP_not_head (ha e (by simp))
    rw [List.cons_append, headsScoped_cons_nonhead he]
    exact ih (fun x hx => ha x (by simp [hx]))

theorem headsScoped_head_no_scope {e : ParseExpr} (h : isHead e = true)
    (l : List ParseExpr) (hl : l.head? ≠ some ParseExpr.scopeStart) :
    headsScoped (e :: l) = false := by
  cases l with
  | nil => simp [headsScoped, h]
  | cons x l => cases x <;> simp_all [headsScoped, h]

theorem takeWhile_loads_append (a b : List ParseExpr)
    (ha : ∀ x ∈ a, isLoadP x = true)
    (hb : ∀ x, b.head? = some x → isLoadP x = false) :
    (a ++ b).takeWhile isLoadP = a ∧ (a ++ b).dropWhile isLoadP = b := by
  induction a with
  | nil =>
    cases b with
    | nil => exact ⟨rfl, rfl⟩
    | cons x b2 =>
      have hx := hb x rfl
      simp [List.takeWhile_cons, List.dropWhile_cons, hx]
  | cons e a ih =>
    have he := ha e (by simp)
    have := ih (fun x hx => ha x (by simp [hx]))
    simp [List.takeWhile_cons, List.dropWhile_cons, he, this.1, this.2]

theorem fse_body_scope {body : List ParseExpr} (h : GP body)
    (rest : List ParseExpr) :
    findScopeEnd (body ++ ParseExpr.scopeEnd :: rest) 1 = some body.length := by
  rw [fse_transparent h (ParseExpr.scopeEnd :: rest) 1 (le_refl 1)]
  simp [findScopeEnd]

/-- The central structure theorem for the optimizer: on every
parser-shaped input all of whose `If`/`Else`/`For` heads carry a scope,
the main loop succeeds and produces a well-formed instruction stream. -/
theorem optF_wf : ∀ (l : List ParseExpr), GP l → headsScoped l = true →
    ∀ f, l.length < f → ∃ out, optimizeF f l = some out ∧ WFStream out := by
  intro l hgp
  induction hgp with
  | nil =>
    intro _ f _
    cases f with
    | zero => exact ⟨[], rfl, WFStream.nil⟩
    | succ f => exact ⟨[], rfl, WFStream.nil⟩
  | eofC rest _ ih =>
    intro hhs f hf
    rw [headsScoped_cons_nonhead (by simp [isHead])] at hhs
    cases f with
    | zero => omega
    | succ f =>
      simp only [List.length_cons] at hf
      obtain ⟨out, ho, hwf⟩ := ih hhs f (by omega)
      exact ⟨out, by simp [optimizeF, ho], hwf⟩
  | ifOpen c rest _ hns _ =>
    intro hhs _ _
    rw [headsScoped_head_no_scope (by simp [isHead]) rest hns] at hhs
    cases hhs
  | elseOpen c rest _ hns _ =>
    intro hhs _ _
    rw [headsScoped_head_no_scope (by simp [isHead]) rest hns] at hhs
    cases hhs
  | forOpen d b rest _ hns _ =>
    intro hhs _ _
    rw [headsScoped_head_no_scope (by simp [isHead]) rest hns] at hhs
    cases hhs
  | ifScoped c body rest hb _ ihb ihr =>
    intro hhs f hf
    rw [headsScoped_cons_head_scope (by simp [isHead])] at hhs
    have hbodyS : headsScoped body = true :=
      headsScoped_append_left body _ hhs (by simp)
    have hrestS : headsScoped rest = true := by
      have := headsScoped_append_right body _ hhs
      rwa [headsScoped_cons_nonhead (by simp [isHead])] at this
    cases f with
    | zero => omega
    | succ f =>
      simp only [List.length_cons, List.length_append] at hf
      obtain ⟨ob, hob, hwb⟩ := ihb hbodyS f (by omega)
      obtain ⟨og, hor, hwr⟩ := ihr hrestS f (by omega)
      refine ⟨.ifE c ob.length :: (ob ++ og), ?_, WFStream.ifE c ob og hwb hwr⟩
      simp [optimizeF, fse_body_scope hb rest, take_len_append,
        drop_len_succ_append, reh_id_of_headsScoped body hbodyS, hob, hor]
  | elseScoped c body rest hb _ ihb ihr =>
    intro hhs f hf
    rw [headsScoped_cons_head_scope (by simp [isHead])] at hhs
    have hbodyS : headsScoped body = true :=
      headsScoped_append_left body _ hhs (by simp)
    have hrestS : headsScoped rest = true := by
      have := headsScoped_append_right body _ hhs
      rwa [headsScoped_cons_nonhead (by simp [isHead])] at this
    cases f with
    | zero => omega
    | succ f =>
      simp only [List.length_cons, List.length_append] at hf
      obtain ⟨ob, hob, hwb⟩ := ihb hbodyS f (by omega)
      obtain ⟨og, hor, hwr⟩ := ihr hrestS f (by omega)
      refine ⟨.elseE c ob.length :: (ob ++ og), ?_,
        WFStream.elseE c ob og hwb hwr⟩
      simp [optimizeF, fse_body_scope hb rest, take_len_append,
        drop_len_succ_append, reh_id_of_headsScoped body hbodyS, hob, hor]
  | forScoped d b body rest hb _ ihb ihr =>
    intro hhs f hf
    rw [headsScoped_cons_head_scope (by simp [isHead])] at hhs
    have hbodyS : headsScoped body = true :=
      headsScoped_append_left body _ hhs (by simp)
    have hrestS : headsScoped rest = true := by
      have := headsScoped_append_right body _ hhs
      rwa [headsScoped_cons_nonhead (by simp [isHead])] at this
    cases f with
    | zero => omega
    | succ f =>
      simp only [List.length_cons, List.length_append] at hf
      obtain ⟨ob, hob, hwb⟩ := ihb hbodyS f (by omega)
      obtain ⟨og, hor, hwr⟩ := ihr hrestS f (by omega)
      refine ⟨.forE d b ob.length :: (ob ++ og), ?_,
        WFStream.forE d b ob og hwb hwr⟩
      simp [optimizeF, fse_body_scope hb rest, take_len_append,
        drop_len_succ_append, reh_id_of_headsScoped body hbodyS, hob, hor]
  | nodeOpen id loads rest hloads hgr ih =>
    intro hhs f hf
    rw [headsScoped_cons_nonhead (by simp [isHead]),
      headsScoped_loads_append loads rest hloads] at hhs
    have hsplit := takeWhile_loads_append loads rest hloads
      (fun x hx => (gp_head hgr x hx).1)
    cases f with
    | zero => omega
    | succ f =>
      simp only [List.length_cons, List.length_append] at hf
      obtain ⟨out, ho, hwf⟩ := ih hhs f (by omega)
      refine ⟨.node id 0 :: (loads.map loadInstr ++ out), ?_, ?_⟩
      · cases hr : rest with
        | nil =>
          subst hr
          simp only [optimizeF, hsplit.1, hsplit.2]
          simp [ho]
          have h0 : optimizeF f [] = some [] := by cases f <;> rfl
          rw [h0] at ho
          exact (Option.some_inj.mp ho).symm
        | cons x rest2 =>
          have hx : x ≠ ParseExpr.scopeStart := by
            intro hcontra
            exact absurd (by simp [hr, hcontra] : rest.head?
              = some ParseExpr.scopeStart) (gp_head_not_scopeStart hgr)
          subst hr
          simp only [optimizeF, hsplit.1, hsplit.2]
          cases x <;> simp_all [ho]
      · have := WFStream.node id (loads.map loadInstr) [] out
          (loads_map_isLoadI hloads) WFStream.nil hwf
        simpa using this
  | nodeScoped id loads body rest hloads hb _ ihb ihr =>
    intro hhs f hf
    rw [headsScoped_cons_nonhead (by simp [isHead]),
      headsScoped_loads_append loads _ hloads,
      headsScoped_cons_nonhead (by simp [isHead])] at hhs
    have hbodyS : headsScoped body = true :=
      headsScoped_append_left body _ hhs (by simp)
    have hrestS : headsScoped rest = true := by
      have := headsScoped_append_right body _ hhs
      rwa [headsScoped_cons_nonhead (by simp [isHead])] at this
    have hsplit := takeWhile_loads_append loads
      (ParseExpr.scopeStart :: (body ++ ParseExpr.scopeEnd :: rest)) hloads
      (by intro x hx; rw [List.head?_cons, Option.some_inj] at hx
          subst hx; rfl)
    cases f with
    | zero => omega
    | succ f =>
      simp only [List.length_cons, List.length_append] at hf
      obtain ⟨ob, hob, hwb⟩ := ihb hbodyS f (by omega)
      obtain ⟨og, hor, hwr⟩ := ihr hrestS f (by omega)
      refine ⟨.node id ob.length :: (loads.map loadInstr ++ (ob ++ og)), ?_,
        WFStream.node id (loads.map loadInstr) ob og
          (loads_map_isLoadI hloads) hwb hwr⟩
      simp [optimizeF, hsplit.1, hsplit.2, fse_body_scope hb rest,
        take_len_append, drop_len_succ_append,
        reh_id_of_headsScoped body hbodyS, hob, hor]

theorem headsScoped_cons_iff (e : ParseExpr) (l : List ParseExpr) :
    headsScoped (e :: l)
      = ((!isHead e || decide (l.head? = some ParseExpr.scopeStart))
          && headsScoped l) := by
  cases l with
  | nil => cases e <;> simp [headsScoped, isHead]
  | cons x l2 => cases e <;> cases x <;> simp [headsScoped, isHead]

theorem headsScoped_append_intro (a b : List ParseExpr)
    (ha : headsScoped a = true) (hb : headsScoped b = true) :
    headsScoped (a ++ b) = true := by
  induction a with
  | nil => simpa using hb
  | cons e a ih =>
    rw [headsScoped_cons_iff, Bool.and_eq_true] at ha
    obtain ⟨h1, h2⟩ := ha
    rw [List.cons_append, headsScoped_cons_iff, Bool.and_eq_true]
    refine ⟨?_, ih h2⟩
    rw [Bool.or_eq_true] at h1 ⊢
    rcases h1 with h1 | h1
    · left; exact h1
    · right
      rcases a with _ | ⟨x, a2⟩
      · simp at h1
      · simpa using h1

/-- Fuel irrelevance for the optimizer main loop: any two fuel values
strictly above the input length give the same result. -/
theorem optF_congr : ∀ (n : Nat) (l : List ParseExpr), l.length ≤ n →
    ∀ f g, l.length < f → l.length < g → optimizeF f l = optimizeF g l := by
  intro n
  induction n with
  | zero =>
    intro l hl f g _ _
    have : l = [] := by cases l <;> simp_all
    subst this
    cases f <;> cases g <;> rfl
  | succ n ih =>
    intro l hl f g hf hg
    cases l with
    | nil => cases f <;> cases g <;> rfl
    | cons e rest =>
      simp only [List.length_cons] at hl hf hg
      cases f with
      | zero => omega
      | succ f =>
        cases g with
        | zero => omega
        | succ g =>
          cases e with
          | eof =>
            simp only [optimizeF]
            exact ih rest (by omega) f g (by omega) (by omega)
          | loadText i =>
            simp only [optimizeF]
            rw [ih rest (by omega) f g (by omega) (by omega)]
          | loadAttribute k v =>
            simp only [optimizeF]
            rw [ih rest (by omega) f g (by omega) (by omega)]
          | scopeStart => rfl
          | scopeEnd => rfl
          | ifE c =>
            cases rest with
            | nil => rfl
            | cons x rest2 =>
              cases x <;> try rfl
              case scopeStart =>
                simp only [List.length_cons] at hl hf hg
                cases hfse : findScopeEnd rest2 1 with
                | some i =>
                  have hle : (removeEmptyIfElseFor (rest2.take i)).length
                      ≤ rest2.length :=
                    le_trans (reh_length_le _) (by
                      simpa using List.length_take_le i rest2)
                  have hdl : (rest2.drop (i + 1)).length ≤ rest2.length := by
                    simp [List.length_drop]
                  simp only [optimizeF, hfse]
                  rw [ih _ (by omega) f g (by omega) (by omega),
                    ih (rest2.drop (i + 1)) (by omega) f g (by omega)
                      (by omega)]
                | none =>
                  simp only [optimizeF, hfse]
                  rw [ih rest2 (by omega) f g (by omega) (by omega)]
          | elseE c =>
            cases rest with
            | nil => rfl
            | cons x rest2 =>
              cases x <;> try rfl
              case scopeStart =>
                simp only [List.length_cons] at hl hf hg
                cases hfse : findScopeEnd rest2 1 with
                | some i =>
                  have hle : (removeEmptyIfElseFor (rest2.take i)).length
                      ≤ rest2.length :=
                    le_trans (reh_length_le _) (by
                      simpa using List.length_take_le i rest2)
                  have hdl : (rest2.drop (i + 1)).length ≤ rest2.length := by
                    simp [List.length_drop]
                  simp only [optimizeF, hfse]
                  rw [ih _ (by omega) f g (by omega) (by omega),
                    ih (rest2.drop (i + 1)) (by omega) f g (by omega)
                      (by omega)]
                | none =>
                  simp only [optimizeF, hfse]
                  rw [ih rest2 (by omega) f g (by omega) (by omega)]
          | forE d b =>
            cases rest with
            | nil => rfl
            | cons x rest2 =>
              cases x <;> try rfl
              case scopeStart =>
                simp only [List.length_cons] at hl hf hg
                cases hfse : findScopeEnd rest2 1 with
                | some i =>
                  have hle : (removeEmptyIfElseFor (rest2.take i)).length
                      ≤ rest2.length :=
                    le_trans (reh_length_le _) (by
                      simpa using List.length_take_le i rest2)
                  have hdl : (rest2.drop (i + 1)).length ≤ rest2.length := by
                    simp [List.length_drop]
                  simp only [optimizeF, hfse]
                  rw [ih _ (by omega) f g (by omega) (by omega),
                    ih (rest2.drop (i + 1)) (by omega) f g (by omega)
                      (by omega)]
                | none =>
                  simp only [optimizeF, hfse]
                  rw [ih rest2 (by omega) f g (by omega) (by omega)]
          | node id =>
            have hdwl : (rest.dropWhile isLoadP).length ≤ rest.length :=
              List.Sublist.length_le (List.dropWhile_sublist _)
            cases hdw : rest.dropWhile isLoadP with
            | nil =>
              simp only [optimizeF, hdw]
            | cons x after2 =>
              have hal : after2.length + 1 ≤ rest.length := by
                rw [← List.length_cons, ← hdw]; exact hdwl
              have hcont : optimizeF f (x :: after2)
                  = optimizeF g (x :: after2) :=
                ih (x :: after2) (by simp only [List.length_cons]; omega)
                  f g (by simp only [List.length_cons]; omega)
                  (by simp only [List.length_cons]; omega)
              cases x
              case scopeStart =>
                cases hfse : findScopeEnd after2 1 with
                | some i =>
                  have hle : (removeEmptyIfElseFor (after2.take i)).length
                      ≤ after2.length :=
                    le_trans (reh_length_le _) (by
                      simpa using List.length_take_le i after2)
                  have hdl : (after2.drop (i + 1)).length ≤ after2.length := by
                    simp [List.length_drop]
                  simp only [optimizeF, hdw, hfse]
                  rw [ih _ (by omega) f g (by omega) (by omega),
                    ih (after2.drop (i + 1)) (by omega) f g (by omega)
                      (by omega)]
                | none =>
                  simp only [optimizeF, hdw, hfse]
                  rw [ih after2 (by omega) f g (by omega) (by omega)]
              all_goals simp only [optimizeF, hdw, hcont]

/-!
Optimizer claims
-/

/-- C4 (amended): for every parser-shaped parse list, the optimizer
succeeds and its output is well formed in the layout the code actually
produces: every `If`/`Else`/`For` instruction is immediately followed by
exactly `size` instructions forming its body, and every `Node`
instruction is immediately followed first by its
`LoadAttribute`/`LoadText` prefix and only then by exactly `scope_size`
body instructions; all blocks are recursively well balanced. -/
theorem optimize_output_wellformed (l : List ParseExpr) (h : GP l) :
    ∃ out, optimize l = some out ∧ WFStream out :=
  optF_wf _ (gp_reh h) (reh_headsScoped l) _ (Nat.lt_succ_self _)

/-- C4 witness: the amended theorem applied to the parse list of the S4
template `text [a: b] ""` with a `span ""` child. -/
theorem optimize_output_wellformed_witness :
    ∃ out,
      optimize [ParseExpr.node 0, ParseExpr.loadAttribute 1 0,
        ParseExpr.loadText 0, ParseExpr.scopeStart, ParseExpr.node 2,
        ParseExpr.loadText 0, ParseExpr.scopeEnd, ParseExpr.eof]
        = some out ∧ WFStream out :=
  optimize_output_wellformed _
    (GP.nodeScoped 0 [ParseExpr.loadAttribute 1 0, ParseExpr.loadText 0]
      [ParseExpr.node 2, ParseExpr.loadText 0] [ParseExpr.eof]
      (by decide)
      (GP.nodeOpen 2 [ParseExpr.loadText 0] [] (by decide) GP.nil)
      (GP.eofC [] GP.nil))

/-- C4 counterexample: the claim as stated fails on the parse list of
`text "t"` with an indented `if x` child wrapping a `span`.  The
optimizer emits `[Node{text,2}, LoadText, If{x,1}, Node{span,0}]`; the
two instructions immediately following `Node{text, scope_size 2}` are
`[LoadText, If{x,1}]`, which is not a well-balanced block (the `If`
needs one more instruction), so the claim reading "exactly scope_size
instructions follow the Node and form a well-balanced block" is false. -/
theorem optimize_claim_sizes_ce :
    GP [ParseExpr.node 0, ParseExpr.loadText 5, ParseExpr.scopeStart,
      ParseExpr.ifE 7, ParseExpr.scopeStart, ParseExpr.node 1,
      ParseExpr.scopeEnd, ParseExpr.scopeEnd, ParseExpr.eof]
    ∧ optimize [ParseExpr.node 0, ParseExpr.loadText 5, ParseExpr.scopeStart,
        ParseExpr.ifE 7, ParseExpr.scopeStart, ParseExpr.node 1,
        ParseExpr.scopeEnd, ParseExpr.scopeEnd, ParseExpr.eof]
      = some [Instruction.node 0 2, Instruction.loadText 5,
          Instruction.ifE 7 1, Instruction.node 1 0]
    ∧ claimSized [Instruction.node 0 2, Instruction.loadText 5,
        Instruction.ifE 7 1, Instruction.node 1 0] = false := by
  refine ⟨?_, by decide, by decide⟩
  exact GP.nodeScoped 0 [ParseExpr.loadText 5]
    [ParseExpr.ifE 7, ParseExpr.scopeStart, ParseExpr.node 1,
      ParseExpr.scopeEnd] [ParseExpr.eof]
    (by decide)
    (GP.ifScoped 7 [ParseExpr.node 1] []
      (GP.nodeOpen 1 [] [] (by decide) GP.nil) GP.nil)
    (GP.eofC [] GP.nil)

/-- C5 (amended): the `remove_empty_if_else_for` pre-pass drops every
`If`/`Else`/`For` head not immediately followed by a `ScopeStart`; since
it scans the whole flat stream this covers every nesting depth, and the
recursive re-optimization of each scope re-applies it.  After the
pre-pass every surviving head is immediately followed by a `ScopeStart`.
(The optimizer output can still contain an `If`/`Else`/`For` of size 0
when everything inside its scope was itself dropped; see the
counterexample.) -/
theorem remove_empty_heads_scoped :
    ∀ l : List ParseExpr,
      headsScoped (removeEmptyIfElseFor l) = true :=
  reh_headsScoped

/-- C5 counterexample: the parse list of `if a` with a nested body-less
`if b` as its only child (accepted by the statement parser) optimizes to
`[If{a, size 0}]`: the inner `if` is dropped by the pre-pass, after
which the outer scope is empty, so the output stream does contain an
`If` instruction with an empty body, contradicting the claim. -/
theorem optimize_empty_if_remains_ce :
    GP [ParseExpr.ifE 0, ParseExpr.scopeStart, ParseExpr.ifE 1,
      ParseExpr.scopeEnd, ParseExpr.eof]
    ∧ optimize [ParseExpr.ifE 0, ParseExpr.scopeStart, ParseExpr.ifE 1,
        ParseExpr.scopeEnd, ParseExpr.eof] = some [Instruction.ifE 0 0]
    ∧ hasEmptyHead [Instruction.ifE 0 0] = true := by
  refine ⟨?_, by decide, by decide⟩
  exact GP.ifScoped 0 [ParseExpr.ifE 1] [ParseExpr.eof]
    (GP.ifOpen 1 [] GP.nil (by simp))
    (GP.eofC [] GP.nil)

/-- C2 (amended): the optimizer emits the `Node` instruction *before*
its contiguous `LoadAttribute`/`LoadText` run: a node line with loads
and a scoped body compiles to
`[Node{scope_size}, LoadAttribute*, LoadText*, scope_body…]` followed by
the compilation of the rest, where `scope_size` is the length of the
compiled body (excluding the load prefix). -/
theorem optimize_node_emits_node_first (id : Nat)
    (loads body rest : List ParseExpr)
    (hloads : ∀ x ∈ loads, isLoadP x = true)
    (hb : GP body) (hbS : headsScoped body = true)
    (hr : GP rest) (hrS : headsScoped rest = true) :
    ∃ b r, optimize body = some b ∧ optimize rest = some r ∧
      optimize (.node id
          :: (loads ++ .scopeStart :: (body ++ .scopeEnd :: rest)))
        = some (.node id b.length
            :: (loads.map loadInstr ++ (b ++ r))) := by
  obtain ⟨b, hbo, _⟩ := optF_wf body hb hbS (body.length + 1)
    (Nat.lt_succ_self _)
  obtain ⟨r, hro, _⟩ := optF_wf rest hr hrS (rest.length + 1)
    (Nat.lt_succ_self _)
  have hobody : optimize body = some b := by
    unfold optimize
    rwa [reh_id_of_headsScoped body hbS]
  have horest : optimize rest = some r := by
    unfold optimize
    rwa [reh_id_of_headsScoped rest hrS]
  refine ⟨b, r, hobody, horest, ?_⟩
  have hLS : headsScoped (ParseExpr.node id
      :: (loads ++ ParseExpr.scopeStart
        :: (body ++ ParseExpr.scopeEnd :: rest))) = true := by
    rw [headsScoped_cons_nonhead (by simp [isHead]),
      headsScoped_loads_append loads _ hloads,
      headsScoped_cons_nonhead (by simp [isHead])]
    exact headsScoped_append_intro body _ hbS
      (by rwa [headsScoped_cons_nonhead (by simp [isHead])])
  have hsplit := takeWhile_loads_append loads
    (ParseExpr.scopeStart :: (body ++ ParseExpr.scopeEnd :: rest)) hloads
    (by intro x hx; rw [List.head?_cons, Option.some_inj] at hx
        subst hx; rfl)
  unfold optimize
  rw [reh_id_of_headsScoped _ hLS]
  have hb3 : optimizeF
      (loads.length + (body.length + (rest.length + 1) + 1) + 1) body
      = some b := by
    rw [optF_congr (loads.length + (body.length + (rest.length + 1) + 1) + 1)
      body (by omega)
      (loads.length + (body.length + (rest.length + 1) + 1) + 1)
      (body.length + 1) (by omega) (by omega)]
    exact hbo
  have hr3 : optimizeF
      (loads.length + (body.length + (rest.length + 1) + 1) + 1) rest
      = some r := by
    rw [optF_congr (loads.length + (body.length + (rest.length + 1) + 1) + 1)
      rest (by omega)
      (loads.length + (body.length + (rest.length + 1) + 1) + 1)
      (rest.length + 1) (by omega) (by omega)]
    exact hro
  simp [optimizeF, hsplit.1, hsplit.2, fse_body_scope hb rest,
    take_len_append, drop_len_succ_append,
    reh_id_of_headsScoped body hbS, hb3, hr3]

/-- C2 counterexample: on the S4 parse list the optimizer emits the
`Node` first, not after its loads: the output is
`[Node{text,2}, LoadAttribute{a,b}, LoadText(""), Node{span,0},
LoadText("")]`, which differs from the sequence the claim states,
`[LoadAttribute{a,b}, LoadText(""), Node{text,2}, LoadText(""),
Node{span,0}]`. -/
theorem optimize_s4_order_ce :
    optimize [ParseExpr.node 0, ParseExpr.loadAttribute 1 0,
        ParseExpr.loadText 0, ParseExpr.scopeStart, ParseExpr.node 2,
        ParseExpr.loadText 0, ParseExpr.scopeEnd, ParseExpr.eof]
      = some [Instruction.node 0 2, Instruction.loadAttribute 1 0,
          Instruction.loadText 0, Instruction.node 2 0,
          Instruction.loadText 0]
    ∧ some [Instruction.node 0 2, Instruction.loadAttribute 1 0,
          Instruction.loadText 0, Instruction.node 2 0,
          Instruction.loadText 0]
        ≠ some [Instruction.loadAttribute 1 0, Instruction.loadText 0,
            Instruction.node 0 2, Instruction.loadText 0,
            Instruction.node 2 0] := by
  decide

/-- C2 witness: the amended theorem applied to the S4 parse list
(`text [a: b] ""` with a `span ""` child). -/
theorem optimize_node_emits_node_first_witness :
    ∃ b r,
      optimize [ParseExpr.node 2, ParseExpr.loadText 0] = some b
      ∧ optimize [ParseExpr.eof] = some r
      ∧ optimize (ParseExpr.node 0
          :: ([ParseExpr.loadAttribute 1 0, ParseExpr.loadText 0]
            ++ ParseExpr.scopeStart
              :: ([ParseExpr.node 2, ParseExpr.loadText 0]
                ++ ParseExpr.scopeEnd :: [ParseExpr.eof])))
        = some (.node 0 b.length
            :: ([ParseExpr.loadAttribute 1 0,
                ParseExpr.loadText 0].map loadInstr ++ (b ++ r))) :=
  optimize_node_emits_node_first 0
    [ParseExpr.loadAttribute 1 0, ParseExpr.loadText 0]
    [ParseExpr.node 2, ParseExpr.loadText 0] [ParseExpr.eof]
    (by decide)
    (GP.nodeOpen 2 [ParseExpr.loadText 0] [] (by decide) GP.nil)
    (by decide) (GP.eofC [] GP.nil) (by decide)

/-!
Assembler claims
-/

theorem execF_nil : ∀ f, execF f [] = some [] := by
  intro f; cases f <;> rfl

theorem elsesF_else_head : ∀ (f : Nat)
    (arms : List (Cond × List Template)) (cond : Option Nat) (size : Nat)
    (rest : List Instruction),
    elsesF f arms (.elseE cond size :: rest) = none := by
  intro f
  induction f with
  | zero => intro arms cond size rest; rfl
  | succ f ih =>
    intro arms cond size rest
    by_cases hle : size ≤ (Instruction.elseE cond size :: rest).length
    · cases size with
      | zero =>
        simp only [elsesF, if_pos hle, List.take_zero, List.drop_zero,
          execF_nil, Option.some_bind]
        exact ih _ cond 0 rest
      | succ s =>
        have hbody : execF f (Instruction.elseE cond (s + 1)
            :: List.take s rest) = none := by
          cases f <;> rfl
        simp only [List.length_cons] at hle
        simp [elsesF, hle, List.take_succ_cons, hbody]
    · simp only [List.length_cons] at hle
      simp [elsesF, hle]

/-- C3: evaluation of the assembler at instruction streams in which an
`If` block is followed by an `Else` instruction.  The claim (and the
intent the code itself asserts in its `unreachable!` message, "the
`Else` instructions are consumed inside the `If` instruction") is that
the else loop consumes each `Else` head and then drains that many body
instructions; the code instead only peeks the `Else` with
`instructions.get(0)` and drains `size` instructions from a list still
starting with the `Else` head, so the recursively assembled arm body
begins with the `Else` and panics at the `unreachable!` (and a size-0
`Else` re-peeks forever).  First conjunct: for every if body and every
following else arm, assembly fails.  The remaining conjuncts evaluate
the failing input `[If{4,1}, View 7, Else{Some 5,1}, View 9, View 8]`,
the drained arm body `[Else{Some 5,1}, View 9]` that hits the
`unreachable!`, and, for contrast, the same `If` without a following
`Else`, which does assemble. -/
theorem exec_else_head_unconsumed :
    (∀ (c : Nat) (body : List Instruction) (cond : Option Nat) (size : Nat)
        (rest : List Instruction),
      exec (.ifE c body.length :: (body ++ .elseE cond size :: rest))
        = none)
    ∧ exec [Instruction.ifE 4 1, Instruction.view 7,
        Instruction.elseE (some 5) 1, Instruction.view 9,
        Instruction.view 8] = none
    ∧ exec [Instruction.elseE (some 5) 1, Instruction.view 9] = none
    ∧ exec [Instruction.ifE 4 1, Instruction.view 7, Instruction.view 8]
      = some [Template.controlFlow [(Cond.ifC 4, [Template.view 7])],
          Template.view 8] := by
  refine ⟨?_, rfl, rfl, rfl⟩
  intro c body cond size rest
  unfold exec
  simp only [List.length_cons]
  simp only [execF]
  rw [if_pos (by simp only [List.length_append]; omega)]
  rw [take_len_append body (Instruction.elseE cond size :: rest),
    drop_len_append body (Instruction.elseE cond size :: rest)]
  simp only [List.length_append, List.length_cons]
  cases hb : execF (body.length + (rest.length + 1) + 1) body with
  | none => simp [hb]
  | some tb => simp [hb, elsesF_else_head]

/-!
Expression parser claims
-/

/-- C7: the Pratt parser precedence examples of spec section 8 (S5).
With string ids assigned in first-seen order (`fun`/`a` get sid 0 and 1,
`a`/`b`/`c` get sids 0, 1, 2), `5 + 1 * 2` parses to `Add(5, Mul(1, 2))`,
`a.b.c` to `Dot(Dot(a, b), c)`, and `fun(1, a + 2 * 3, 3)` to a call with
exactly the three arguments `1`, `Add(a, Mul(2, 3))` and `3`. -/
theorem pratt_precedence_examples :
    prattExpr [Kind.value (.number 5), Kind.op .plus, Kind.value (.number 1),
        Kind.op .mul, Kind.value (.number 2)]
      = .ok (.binary (.num 5) (.binary (.num 1) (.num 2) .mul) .plus, [])
    ∧ prattExpr [Kind.value (.ident 0), Kind.op .dot, Kind.value (.ident 1),
        Kind.op .dot, Kind.value (.ident 2)]
      = .ok (.binary (.binary (.ident 0) (.ident 1) .dot) (.ident 2) .dot, [])
    ∧ prattExpr [Kind.value (.ident 0), Kind.op .lparen,
        Kind.value (.number 1), Kind.op .comma, Kind.value (.ident 1),
        Kind.op .plus, Kind.value (.number 2), Kind.op .mul,
        Kind.value (.number 3), Kind.op .comma, Kind.value (.number 3),
        Kind.op .rparen]
      = .ok (.call (.ident 0)
          [.num 1, .binary (.ident 1) (.binary (.num 2) (.num 3) .mul) .plus,
            .num 3], []) :=
  ⟨rfl, rfl, rfl⟩

/-- C6: evaluation of the expression parser at the malformed inputs the
claim lists.  The claim says each returns a `ParseError{kind, position}`
and the parser never panics; the code instead panics at each of them (the
parser has no error return type at all: `expr_bp` returns a bare `Expr`).
A parenthesized expression missing its closing paren hits the `assert!`,
an index expression missing its closing bracket hits
`panic!("invalid token")`, end of input in operand position hits
`panic!("unexpected eof")`, a keyword in operand position hits the
catch-all `panic!`, and a float value hits the unhandled-value
`panic!`. -/
theorem pratt_panics_on_malformed :
    prattExpr [Kind.op .lparen, Kind.value (.number 1)]
      = .error .missingRParen
    ∧ prattExpr [Kind.value (.ident 0), Kind.op .lbracket,
        Kind.value (.number 0)]
      = .error .invalidToken
    ∧ prattExpr [] = .error .unexpectedEof
    ∧ prattExpr [Kind.forK] = .error .unhandledToken
    ∧ prattExpr [Kind.value (.float 3)] = .error .unhandledValue :=
  ⟨rfl, rfl, rfl, rfl, rfl⟩

/-!
ControlFlow widget claims
-/

theorem elseFlags_true_all_false :
    ∀ es, ∀ b ∈ elseFlags true es, b = false := by
  intro es
  induction es with
  | nil => intro b hb; cases hb
  | cons e es ih =>
    intro b hb
    simp only [elseFlags, Bool.not_true, Bool.false_and, Bool.true_or,
      List.mem_cons] at hb
    rcases hb with h | h
    · exact h
    · exact ih b h

theorem flaggedSum_all_false :
    ∀ fs cs, (∀ b ∈ fs, b = false) → flaggedSum fs cs = 0 := by
  intro fs
  induction fs with
  | nil => intro cs _; cases cs <;> rfl
  | cons b bs ih =>
    intro cs hall
    cases cs with
    | nil => rfl
    | cons c cs =>
      have hb : b = false := hall b (by simp)
      simp [flaggedSum, hb, ih cs (fun x hx => hall x (by simp [hx]))]

theorem count_true_all_false :
    ∀ fs : List Bool, (∀ b ∈ fs, b = false) → fs.count true = 0 := by
  intro fs
  induction fs with
  | nil => intro _; rfl
  | cons b bs ih =>
    intro hall
    have hb : b = false := hall b (by simp)
    simp [hb, List.count_cons, ih (fun x hx => hall x (by simp [hx]))]

theorem elseFlags_false_spec :
    ∀ es : List ElseArm,
      (elseFlags false es).count true ≤ 1
      ∧ flaggedSum (elseFlags false es) (es.map ElseArm.bodyCount)
          = ((es.find? ElseArm.isTrueArm).map ElseArm.bodyCount).getD 0 := by
  intro es
  induction es with
  | nil => exact ⟨by decide, rfl⟩
  | cons e es ih =>
    by_cases ha : e.isTrueArm = true
    · constructor
      · simp only [elseFlags, ha, Bool.not_false, Bool.true_and,
          Bool.false_or, List.count_cons]
        have h0 := count_true_all_false _ (elseFlags_true_all_false es)
        simp only [h0]
        simp
      · simp only [elseFlags, ha, List.map_cons, flaggedSum, Bool.not_false,
          Bool.true_and, Bool.false_or, if_true, List.find?]
        rw [flaggedSum_all_false _ _ (elseFlags_true_all_false es)]
        simp [List.find?_cons_of_pos, ha]
    · have ha2 : e.isTrueArm = false := by
        cases h : e.isTrueArm
        · rfl
        · exact absurd h ha
      constructor
      · simp only [elseFlags, ha2, Bool.and_false, List.count_cons]
        simpa using ih.1
      · simp only [elseFlags, ha2, Bool.and_false, List.map_cons, flaggedSum,
          Bool.or_false, if_false]
        rw [List.find?_cons_of_neg _ (by simp [ha2])]
        simpa using ih.2

/-- C8: at any resolved state of the condition values, at most one arm of
an `IfElse` control-flow node is active (the if arm when its condition is
true, otherwise the first else arm whose condition is true or absent),
and `IfElse::count` equals the sum of the counts of only the active arms,
so the node count excludes the bodies of all inactive arms. -/
theorem controlflow_single_active (n : IfElseNode) :
    n.activeFlags.count true ≤ 1
      ∧ n.count = flaggedSum n.activeFlags n.armCounts := by
  cases hc : n.ifCond
  · constructor
    · simp only [IfElseNode.activeFlags, hc, List.count_cons]
      simpa using (elseFlags_false_spec n.elses).1
    · simp only [IfElseNode.count, IfElseNode.selectedBody, hc, if_false,
        IfElseNode.activeFlags, IfElseNode.armCounts, flaggedSum]
      simpa using ((elseFlags_false_spec n.elses).2).symm
  · constructor
    · simp only [IfElseNode.activeFlags, hc, List.count_cons, if_pos rfl]
      have h0 := count_true_all_false _ (elseFlags_true_all_false n.elses)
      simp [h0]
    · simp only [IfElseNode.count, IfElseNode.selectedBody, hc, if_true,
        IfElseNode.activeFlags, IfElseNode.armCounts, flaggedSum]
      rw [flaggedSum_all_false _ _ (elseFlags_true_all_false n.elses)]
      simp

end Anathema
